import Mathlib

/-!
Verification of the batch-pipeline core of `src/cli.py` (class `BatchProcessor`).

The Python code is shallowly embedded: dictionaries holding invoice records
become a `Record` structure keeping exactly the fields the pipeline itself
reads (`source_file`, `energy_reference`, `processed_at`, `_redis_id`) plus an
opaque payload for the remaining extracted fields; the Redis store becomes an
explicit `RedisState` of association lists (sets are duplicate-free lists with
set-semantics insert/erase, matching Redis SADD/SREM and Python `set`);
`datetime.now()` is an explicit `now : Nat` argument; `uuid.uuid4().hex` is an
explicit fresh-name supply counter.  Python truthiness of optional strings
(`if source:`) is the `truthy` function (absent or empty ⇒ falsy).
-/

namespace Batch

/-- Python `set.add` / Redis `SADD`: insert without duplicating. -/
def setInsert {α : Type} [DecidableEq α] (s : List α) (x : α) : List α :=
  if x ∈ s then s else s ++ [x]

/-- Python `set.discard` / Redis `SREM`: remove every occurrence. -/
def setErase {α : Type} [DecidableEq α] (s : List α) (x : α) : List α :=
  s.filter (fun y => decide (y ≠ x))

/-- Dictionary lookup (`m[k]` / `m.get(k)`). -/
def mapFind {α β : Type} [DecidableEq α] : List (α × β) → α → Option β
  | [], _ => none
  | (k, v) :: rest, key => if k = key then some v else mapFind rest key

/-- Dictionary update (`m[k] = v`, Redis `HSET`/`ZADD` on one member). -/
def mapSet {α β : Type} [DecidableEq α] : List (α × β) → α → β → List (α × β)
  | [], key, v => [(key, v)]
  | (k, w) :: rest, key, v =>
      if k = key then (key, v) :: rest else (k, w) :: mapSet rest key v

/-- Dictionary removal (Redis `DEL`/`ZREM` on one member). -/
def mapRemove {α β : Type} [DecidableEq α] : List (α × β) → α → List (α × β)
  | [], _ => []
  | (a, b) :: rest, k =>
      if a = k then mapRemove rest k else (a, b) :: mapRemove rest k

/-- A record produced by one unit of work: the fields the pipeline reads,
plus the remaining extracted fields as opaque payload.  `redisId` embeds the
`_redis_id` entry `_build_record_identifier` may write back into the dict. -/
structure Record where
  source_file : Option String
  energy_reference : Option String
  processed_at : Option String
  redisId : Option String
  payload : List (String × String)
deriving DecidableEq, Repr

/-- Python truthiness of an optional string: `None` and `""` are falsy. -/
def truthy : Option String → Option String
  | none => none
  | some s => if s = "" then none else some s

/-- Python `str.strip()` restricted to ASCII whitespace. -/
def pyStrip (s : String) : String :=
  ⟨((s.data.dropWhile Char.isWhitespace).reverse.dropWhile
      Char.isWhitespace).reverse⟩

/-- Python `str.upper()` on the ASCII range. -/
def pyUpper (s : String) : String := ⟨s.data.map Char.toUpper⟩

/-- `str(reference).strip().upper()`, the normalisation applied to business
references before indexing them. -/
def normalizeRef (s : String) : String := pyUpper (pyStrip s)

/-- ASCII letter or digit: one character of the class `[A-Za-z0-9]`. -/
def isAsciiAlnum (c : Char) : Bool :=
  c.isDigit || (('A' ≤ c && c ≤ 'Z') || ('a' ≤ c && c ≤ 'z'))

/-- `re.fullmatch` of a single character class repeated exactly `n` times
(the shape of the two patterns in `_is_valid_energy_reference`). -/
def matchRepeat (cls : Char → Bool) : Nat → List Char → Bool
  | 0, [] => true
  | 0, _ :: _ => false
  | _ + 1, [] => false
  | n + 1, c :: cs => cls c && matchRepeat cls n cs

/-- `BatchProcessor._is_valid_energy_reference` (src/src/cli.py:311-320):
falsy references are invalid; otherwise the stripped string must fully match
`\d{14}` or `[A-Za-z0-9]{8}` (digits restricted to ASCII in this model). -/
def isValidEnergyReference (reference : Option String) : Bool :=
  match truthy reference with
  | none => false
  | some s =>
      let ref := pyStrip s
      matchRepeat Char.isDigit 14 ref.data || matchRepeat isAsciiAlnum 8 ref.data

/-- The validity shape as the spec words it ("a 14-digit numeric string, or an
8-character alphanumeric string containing at least one letter"), kept as a
separate definition to compare against the code's predicate. -/
def specIsValidReference (reference : String) : Bool :=
  let ref := pyStrip reference
  (ref.data.length = 14 && ref.data.all Char.isDigit) ||
    (ref.data.length = 8 && ref.data.all isAsciiAlnum &&
      ref.data.any Char.isAlpha)

/-- Record identifiers as built by `_build_record_identifier`: the constructors
model the disjoint string shapes `"ref::"++r`, `"src::"++s`, `"id::"++g`. -/
inductive Ident where
  | ref (r : String)
  | src (s : String)
  | anon (g : String)
deriving DecidableEq, Repr

/-- Dedup keys as built by `_compute_record_key`: the constructors model the
disjoint string shapes `"source::"++s`, `"energy::"++r`, and the
`json.dumps(record, sort_keys=True)` fallback (a deterministic function of the
whole record, which the `json` constructor captures exactly). -/
inductive RKey where
  | source (s : String)
  | energy (r : String)
  | json (r : Record)
deriving DecidableEq, Repr

/-- An ordering score: `datetime.fromisoformat(processed_at).timestamp()` when
`processed_at` is truthy (a fixed function of the string, embedded as the
string itself), else `datetime.now().timestamp()` (the explicit clock). -/
inductive Score where
  | iso (t : String)
  | clock (n : Nat)
deriving DecidableEq, Repr

/-- The external store keys the pipeline touches (namespace `N`):
`N:processed_refs`, `N:order`, `N:record:<identifier>`, `wal:index`, and the
`wal:<ts>:<suffix>` list segments. -/
structure RedisState where
  processedRefs : List String
  order : List (Ident × Score)
  records : List (Ident × Record)
  walIndex : List String
  walSegs : List (String × List Record)
deriving DecidableEq, Repr

/-- The mutable `BatchProcessor` state the verified operations touch. -/
structure ProcState where
  results : List Record
  seenRecordKeys : List RKey
  indexBySource : List (String × Nat)
  recordKeyBySource : List (String × RKey)
  failedSources : List String
  processedReferences : List String
  uuidSupply : Nat
  walKey : Option String
  recoveredWalKeys : List String
  redis : RedisState
deriving DecidableEq, Repr

def emptyRedis : RedisState := ⟨[], [], [], [], []⟩

/-- The processor state right after `process_batch`'s reset block
(src/src/cli.py:502-514): all in-memory indices cleared; the external store
(and, for generality, the initial redis contents) carried as given. -/
def resetState (redis : RedisState) : ProcState :=
  ⟨[], [], [], [], [], [], 0, none, [], redis⟩

def initState : ProcState := resetState emptyRedis

/-- `BatchProcessor._compute_record_key` (src/src/cli.py:121-132). -/
def computeRecordKey (r : Record) : RKey :=
  match truthy r.source_file with
  | some src => RKey.source src
  | none =>
      match truthy r.energy_reference with
      | some eref => RKey.energy eref
      | none => RKey.json r

/-- `BatchProcessor._build_record_identifier` (src/src/cli.py:143-158).
Returns the identifier, the record (mutated with a fresh `_redis_id` in the
last branch, since the Python dict is updated in place), and the advanced
fresh-name supply standing in for `uuid.uuid4().hex`. -/
def buildRecordIdentifier (r : Record) (supply : Nat) :
    Ident × Record × Nat :=
  if isValidEnergyReference r.energy_reference then
    (Ident.ref (normalizeRef (r.energy_reference.getD "")), r, supply)
  else
    match truthy r.source_file with
    | some src => (Ident.src src, r, supply)
    | none =>
        match truthy r.redisId with
        | some existing => (Ident.anon existing, r, supply)
        | none =>
            let generated := "u" ++ toString supply
            (Ident.anon generated, { r with redisId := some generated },
              supply + 1)

/-- `BatchProcessor._persist_record_to_redis` (src/src/cli.py:160-203).
`redisOk` models whether the pipelined transaction commits: redis-py pipelines
are transactional, so on `RedisError` nothing is applied and the exception is
swallowed.  Commands are applied in the order they are queued. -/
def persistRecordToRedis (rs : RedisState) (record : Record)
    (recordIdentifier : Ident) (previousIdentifier : Option Ident)
    (previousReference : Option String) (now : Nat) (redisOk : Bool) :
    RedisState :=
  if redisOk then
    let score :=
      match truthy record.processed_at with
      | some t => Score.iso t
      | none => Score.clock now
    let rs1 := { rs with
      records := mapSet rs.records recordIdentifier record,
      order := mapSet rs.order recordIdentifier score }
    let newRefs :=
      setInsert rs1.processedRefs
        (normalizeRef (record.energy_reference.getD ""))
    let rs2 :=
      if isValidEnergyReference record.energy_reference then
        { rs1 with processedRefs := newRefs }
      else rs1
    match previousIdentifier with
    | some prev =>
        if prev ≠ recordIdentifier then
          let rs3 := { rs2 with
            order := mapRemove rs2.order prev,
            records := mapRemove rs2.records prev }
          let prunedRefs :=
            setErase rs3.processedRefs
              (normalizeRef (previousReference.getD ""))
          if isValidEnergyReference previousReference then
            { rs3 with processedRefs := prunedRefs }
          else rs3
        else rs2
    | none => rs2
  else rs

/-- Default record used to model an in-range Python list access. -/
def blankRecord : Record := ⟨none, none, none, none, []⟩

/-- `BatchProcessor._store_result` (src/src/cli.py:261-309), including the
in-place `_redis_id` mutation that `_build_record_identifier` can apply to the
dict already sitting in `self.results`.  `now` is the wall clock passed to the
persistence step, `redisOk` whether its transaction commits. -/
def storeResult (st : ProcState) (record : Record) (now : Nat)
    (redisOk : Bool) : ProcState × Bool :=
  let source := truthy record.source_file
  let newKey := computeRecordKey record
  let hit :=
    match source with
    | some s => (mapFind st.indexBySource s).map (fun i => (s, i))
    | none => none
  -- replace-or-append (src/src/cli.py:274-288)
  let step :=
    match hit with
    | some (s, idx) =>
        let seen1 :=
          match mapFind st.recordKeyBySource s with
          | some prevKey => setErase st.seenRecordKeys prevKey
          | none => st.seenRecordKeys
        let existing := st.results.getD idx blankRecord
        let built := buildRecordIdentifier existing st.uuidSupply
        ({ st with
            results := st.results.set idx record,
            seenRecordKeys := seen1,
            uuidSupply := built.2.2 },
          idx, some built.1, existing.energy_reference, true)
    | none =>
        ({ st with results := st.results ++ [record] },
          st.results.length, none, none, false)
  let st1 := step.1
  let idx := step.2.1
  let previousIdentifier := step.2.2.1
  let previousReference := step.2.2.2.1
  let replaced := step.2.2.2.2
  -- dedupe bookkeeping (src/src/cli.py:290-299)
  let st2 := { st1 with seenRecordKeys := setInsert st1.seenRecordKeys newKey }
  let st3 :=
    match source with
    | some s =>
        { st2 with
            indexBySource := mapSet st2.indexBySource s idx,
            recordKeyBySource := mapSet st2.recordKeyBySource s newKey }
    | none => st2
  let newRefs :=
    setInsert st3.processedReferences
      (normalizeRef (record.energy_reference.getD ""))
  let st4 :=
    if isValidEnergyReference record.energy_reference then
      { st3 with processedReferences := newRefs }
    else st3
  -- identifier build + external persistence (src/src/cli.py:301-307); the
  -- possible `_redis_id` write-back lands in the aliased list slot too
  let built := buildRecordIdentifier record st4.uuidSupply
  let stored := built.2.1
  let st5 := { st4 with
    results := st4.results.set idx stored,
    uuidSupply := built.2.2,
    redis := persistRecordToRedis st4.redis stored built.1
      previousIdentifier previousReference now redisOk }
  (st5, replaced)

/-- A sequence of `_store_result` calls (each with its own clock value and
transaction outcome). -/
def storeMany (st : ProcState) : List (Record × Nat × Bool) → ProcState
  | [] => st
  | (r, t, ok) :: rest => storeMany (storeResult st r t ok).1 rest

/-- Replaying one WAL segment through `_store_result`, as
`_recover_from_wal` does entry by entry (src/src/cli.py:379-404); the clock
advances across calls. -/
def replayWal (st : ProcState) : List Record → Nat → ProcState
  | [], _ => st
  | r :: rs, t => replayWal (storeResult st r t true).1 rs (t + 1)

/-- `BatchProcessor._collect_invalid_sources` (src/src/cli.py:322-333):
start from a copy of `failed_sources`, then add every stored source whose
reference is missing or invalid. -/
def collectInvalidSources (st : ProcState) : List String :=
  st.results.foldl
    (fun acc r =>
      match truthy r.source_file with
      | none => acc
      | some s =>
          if isValidEnergyReference r.energy_reference then acc
          else setInsert acc s)
    st.failedSources

/-- `BatchProcessor._ensure_wal_key` (src/src/cli.py:99-111): lazily name the
run's segment (`name` stands for the timestamp+uuid string) and register it in
`wal:index`.  `self.wal_key` is assigned *before* the `SADD`; if that `SADD`
raises (`saddOk = false`) a `RuntimeError` is raised with `wal_key` left set.
The returned flag is `true` when the call raised. -/
def ensureWalKey (st : ProcState) (name : String) (saddOk : Bool) :
    ProcState × Option String × Bool :=
  match st.walKey with
  | some k => (st, some k, false)
  | none =>
      let st1 := { st with walKey := some name }
      if saddOk then
        ({ st1 with redis := { st1.redis with
            walIndex := setInsert st1.redis.walIndex name } },
          some name, false)
      else (st1, none, true)

/-- Append one serialized record to a WAL segment list (Redis `RPUSH`). -/
def rpushSeg (segs : List (String × List Record)) (key : String)
    (r : Record) : List (String × List Record) :=
  match mapFind segs key with
  | some entries => mapSet segs key (entries ++ [r])
  | none => mapSet segs key [r]

/-- `BatchProcessor._append_to_wal` (src/src/cli.py:113-119): `_ensure_wal_key`
runs *outside* the `try`, so its `RuntimeError` propagates; only the `RPUSH`
failure (`rpushOk = false`) is caught and logged.  The Bool result is `true`
when the call raised to its caller. -/
def appendToWal (st : ProcState) (record : Record) (name : String)
    (saddOk rpushOk : Bool) : ProcState × Bool :=
  let ensured := ensureWalKey st name saddOk
  match ensured.2.1 with
  | none => (ensured.1, true)
  | some walKey =>
      if rpushOk then
        ({ ensured.1 with redis := { ensured.1.redis with
            walSegs := rpushSeg ensured.1.redis.walSegs walKey record } },
          false)
      else (ensured.1, false)

/-- `BatchProcessor._cleanup_wal` (src/src/cli.py:241-259): delete every
recovered segment plus the current one and unregister them; a failing pipeline
(`redisOk = false`) is only logged, and the in-memory tracking is cleared in
both cases. -/
def cleanupWal (st : ProcState) (redisOk : Bool) : ProcState :=
  let keysToRemove :=
    match st.walKey with
    | some w => setInsert st.recoveredWalKeys w
    | none => st.recoveredWalKeys
  if keysToRemove = [] then st
  else
    let redis1 :=
      if redisOk then
        keysToRemove.foldl
          (fun rs k =>
            { rs with
                walSegs := mapRemove rs.walSegs k,
                walIndex := setErase rs.walIndex k })
          st.redis
      else st.redis
    { st with redis := redis1, recoveredWalKeys := [], walKey := none }

/-- `BatchProcessor._fetch_all_records` (src/src/cli.py:205-239): list the
ordering index and resolve each payload; if the index read fails
(`zrangeOk = false`) fall back to the in-memory copy. -/
def fetchAllRecords (st : ProcState) (zrangeOk : Bool) : List Record :=
  if zrangeOk then
    st.redis.order.filterMap (fun p => mapFind st.redis.records p.1)
  else st.results

/-- `BatchProcessor._convert_memory_to_excel` (src/src/cli.py:456-493): fetch,
export unless empty, and — in the `finally` block — always run `_cleanup_wal`.
`exportOk` models whether the dataframe/Excel write raises; the Bool result is
`true` when the exception is re-raised to the caller. -/
def convertMemoryToExcel (st : ProcState) (zrangeOk exportOk cleanupOk : Bool) :
    ProcState × Bool :=
  let records := fetchAllRecords st zrangeOk
  if records.isEmpty then (cleanupWal st cleanupOk, false)
  else if exportOk then (cleanupWal st cleanupOk, false)
  else (cleanupWal st cleanupOk, true)

/-- The primary pass of `process_batch` at the counter level
(src/src/cli.py:532-546): windows of `m` files are drained one after the
other; each outcome `true` bumps `processed_count`; after each window an
incremental export is scheduled iff the counter is a positive multiple of 20.
Returns the final counter and the counter values at which exports were
scheduled.  (`m = 0` would make Python's `range(0, n, 0)` raise; the model
returns immediately in that degenerate case.) -/
def runPrimary (m : Nat) : List Bool → Nat → List Nat → Nat × List Nat
  | [], count, exports => (count, exports)
  | c :: cs, count, exports =>
      if hm : m = 0 then (count, exports)
      else
        let window := (c :: cs).take m
        let rest := (c :: cs).drop m
        let count1 := count + (window.filter id).length
        let exports1 :=
          if 0 < count1 ∧ count1 % 20 = 0 then exports ++ [count1]
          else exports
        runPrimary m rest count1 exports1
termination_by l => l.length
decreasing_by
  simp only [List.length_drop, List.length_cons]
  omega

def primaryPass (m : Nat) (outcomes : List Bool) : Nat × List Nat :=
  runPrimary m outcomes 0 []

/-- The windows' boundary counter values of the primary pass. -/
def boundaryCounts (m : Nat) : List Bool → Nat → List Nat
  | [], _ => []
  | c :: cs, count =>
      if hm : m = 0 then []
      else
        let window := (c :: cs).take m
        let rest := (c :: cs).drop m
        let count1 := count + (window.filter id).length
        count1 :: boundaryCounts m rest count1
termination_by l => l.length
decreasing_by
  simp only [List.length_drop, List.length_cons]
  omega

/-- An input document path; only the filename (`Path.name`) matters to the
pipeline's source mapping. -/
structure PdfPath where
  parent : String
  name : String
deriving DecidableEq, Repr

/-- The `source_to_path` ingestion loop of `process_batch`
(src/src/cli.py:523-530): warn on an already-seen filename, then map the
filename to the (later) path.  Returns the mapping and the warned names. -/
def buildSourceToPath (files : List PdfPath) :
    List (String × PdfPath) × List String :=
  files.foldl
    (fun acc p =>
      match mapFind acc.1 p.name with
      | some _ => (mapSet acc.1 p.name p, acc.2 ++ [p.name])
      | none => (mapSet acc.1 p.name p, acc.2))
    ([], [])

/-- How often a filename occurs among the input paths. -/
def countName (files : List PdfPath) (n : String) : Nat :=
  (files.filter (fun p => decide (p.name = n))).length

/-- The last input path bearing a given filename. -/
def lastWithName : List PdfPath → String → Option PdfPath
  | [], _ => none
  | p :: rest, n =>
      match lastWithName rest n with
      | some q => some q
      | none => if p.name = n then some p else none

/-- The source of a record under Python truthiness. -/
def getSrc (r : Record) : Option String := truthy r.source_file

/-- Erase and re-insert a dedup key (the `seen_record_keys` effect of a
replace that keeps the same key). -/
def touchKey (seen : List RKey) (k : RKey) : List RKey :=
  setInsert (setErase seen k) k

/-- The identifier `_build_record_identifier` computes, for records whose
identifier does not consume a fresh uuid (valid reference, truthy source, or
an already-assigned `_redis_id`). -/
def stableIdent (r : Record) : Ident := (buildRecordIdentifier r 0).1

/-- The `processed_references` set after registering one record
(src/src/cli.py:296-299 and the `SADD` of src/src/cli.py:183-188). -/
def refsAfter (prefs : List String) (r : Record) : List String :=
  if isValidEnergyReference r.energy_reference then
    setInsert prefs (normalizeRef (r.energy_reference.getD ""))
  else prefs

/-- Second-pass replay checker: every store is a replace (`True`) whose
replaced in-store payload is the very record being stored. -/
def allReplaceIdentical (st : ProcState) : List Record → Nat → Bool
  | [], _ => true
  | r :: rs, t =>
      let existing :=
        match getSrc r with
        | some s =>
            match mapFind st.indexBySource s with
            | some idx => st.results.get? idx
            | none => none
        | none => none
      let out := storeResult st r t true
      (out.2 && decide (existing = some r)) && allReplaceIdentical out.1 rs (t + 1)

/-- A state with its `seen_record_keys` scrubbed, to compare the rest. -/
def scrubSeen (st : ProcState) : ProcState := { st with seenRecordKeys := [] }

/-- A record is a fixpoint of the Record Store in state `st`: it sits at its
source's slot, its identifier resolves to it in the external store with its
`processed_at` score, its dedup key is registered, and its normalised
reference (when valid) is tracked.  Replaying such a record through
`_store_result` changes nothing but reinserts its dedup key. -/
def FixedCond (st : ProcState) (r : Record) : Prop :=
  ∃ s idx p,
    truthy r.source_file = some s ∧
    truthy r.processed_at = some p ∧
    mapFind st.indexBySource s = some idx ∧
    st.results.get? idx = some r ∧
    mapFind st.recordKeyBySource s = some (RKey.source s) ∧
    RKey.source s ∈ st.seenRecordKeys ∧
    mapFind st.redis.records (stableIdent r) = some r ∧
    mapFind st.redis.order (stableIdent r) = some (Score.iso p) ∧
    (isValidEnergyReference r.energy_reference = true →
      normalizeRef (r.energy_reference.getD "") ∈ st.redis.processedRefs ∧
      normalizeRef (r.energy_reference.getD "") ∈ st.processedReferences)

/-- Structural invariant of `_store_result` bookkeeping: every
`index_by_source` entry points into `results` at a record carrying that very
source, and every stored record with a truthy source is pointed at by its
index entry. -/
def SourceIndexInv (st : ProcState) : Prop :=
  (∀ s i, mapFind st.indexBySource s = some i →
      i < st.results.length ∧
        getSrc (st.results.getD i blankRecord) = some s) ∧
  (∀ i s, i < st.results.length →
      getSrc (st.results.getD i blankRecord) = some s →
      mapFind st.indexBySource s = some i)

/-! ### Concrete records and states for instantiations -/

/-- A record for `a.pdf` carrying a valid 14-digit reference. -/
def recA : Record :=
  ⟨some "a.pdf", some "12345678901234", some "2024-01-01T00:00:00", none, []⟩

/-- A record for `a.pdf` carrying a different valid 8-character reference. -/
def recB : Record :=
  ⟨some "a.pdf", some "ZZZZ1234", some "2024-01-01T00:05:00", none, []⟩

/-- A record with no `source_file` (and no `_redis_id` yet). -/
def recNoSrc : Record :=
  ⟨none, some "ZZZZ1234", some "2024-01-01T00:00:00", none, []⟩

/-- A state mid-run: one live record in the external store and a registered
WAL segment for the current run. -/
def walDemoState : ProcState :=
  { initState with
      walKey := some "wal:a",
      redis := { emptyRedis with
        walIndex := ["wal:a"],
        walSegs := [("wal:a", [recB])],
        records := [(Ident.ref "ZZZZ1234", recB)],
        order := [(Ident.ref "ZZZZ1234", Score.iso "2024-01-01T00:05:00")] } }

/-- A state in which `a.pdf` is recorded as explicitly failed although a
stored record for `a.pdf` holds a valid reference (reachable: the record is
recovered from a previous run's WAL, then the primary pass fails on the
file). -/
def c6DemoState : ProcState :=
  { initState with failedSources := ["a.pdf"], results := [recB] }

/-! ### Library lemmas about the set / map helpers -/

theorem mem_setInsert {α : Type} [DecidableEq α] (s : List α) (x a : α) :
    a ∈ setInsert s x ↔ a = x ∨ a ∈ s := by
  unfold setInsert
  by_cases h : x ∈ s
  · simp only [if_pos h]
    constructor
    · exact Or.inr
    · rintro (rfl | h1)
      · exact h
      · exact h1
  · simp only [if_neg h, List.mem_append, List.mem_singleton]
    exact Or.comm

theorem setInsert_of_mem {α : Type} [DecidableEq α] {s : List α} {x : α}
    (h : x ∈ s) : setInsert s x = s := by
  unfold setInsert; simp [h]

theorem mem_setErase {α : Type} [DecidableEq α] (s : List α) (x a : α) :
    a ∈ setErase s x ↔ a ∈ s ∧ a ≠ x := by
  unfold setErase; simp

theorem mem_setInsert_setErase {α : Type} [DecidableEq α] {s : List α}
    {x : α} (h : x ∈ s) (a : α) :
    a ∈ setInsert (setErase s x) x ↔ a ∈ s := by
  rw [mem_setInsert, mem_setErase]
  by_cases ha : a = x
  · subst ha; simp [h]
  · simp [ha]

theorem mapFind_mapSet_self {α β : Type} [DecidableEq α]
    (m : List (α × β)) (k : α) (v : β) :
    mapFind (mapSet m k v) k = some v := by
  induction m with
  | nil => simp [mapSet, mapFind]
  | cons p rest ih =>
      obtain ⟨a, b⟩ := p
      by_cases h : a = k <;> simp [mapSet, mapFind, h, ih]

theorem mapFind_mapSet_ne {α β : Type} [DecidableEq α]
    (m : List (α × β)) (k key : α) (v : β) (h : key ≠ k) :
    mapFind (mapSet m k v) key = mapFind m key := by
  induction m with
  | nil =>
      have hk : ¬(k = key) := fun e => h (Eq.symm e)
      simp [mapSet, mapFind, hk]
  | cons p rest ih =>
      obtain ⟨a, b⟩ := p
      by_cases ha : a = k
      · subst ha
        have hk : ¬(a = key) := fun e => h (Eq.symm e)
        simp [mapSet, mapFind, hk]
      · by_cases hak : a = key <;> simp [mapSet, mapFind, ha, hak, ih, h]

theorem mapSet_of_find {α β : Type} [DecidableEq α]
    {m : List (α × β)} {k : α} {v : β} (h : mapFind m k = some v) :
    mapSet m k v = m := by
  induction m with
  | nil => simp [mapFind] at h
  | cons p rest ih =>
      obtain ⟨a, b⟩ := p
      by_cases ha : a = k
      · subst ha
        simp [mapFind] at h
        simp [mapSet, h]
      · simp [mapFind, ha] at h
        simp [mapSet, ha, ih h]

theorem mapFind_mapRemove_self {α β : Type} [DecidableEq α]
    (m : List (α × β)) (k : α) :
    mapFind (mapRemove m k) k = none := by
  induction m with
  | nil => simp [mapRemove, mapFind]
  | cons p rest ih =>
      obtain ⟨a, b⟩ := p
      by_cases ha : a = k
      · simpa [mapRemove, mapFind, ha] using ih
      · simpa [mapRemove, mapFind, ha] using ih

theorem mapFind_mapRemove_ne {α β : Type} [DecidableEq α]
    (m : List (α × β)) (k key : α) (h : key ≠ k) :
    mapFind (mapRemove m k) key = mapFind m key := by
  induction m with
  | nil => simp [mapRemove, mapFind]
  | cons p rest ih =>
      obtain ⟨a, b⟩ := p
      by_cases ha : a = k
      · subst ha
        have hk : ¬(a = key) := fun e => h (Eq.symm e)
        simpa [mapRemove, mapFind, hk] using ih
      · by_cases hk : a = key <;> simp [mapRemove, mapFind, ha, hk, ih, h]

theorem set_append_length {α : Type} (l : List α) (a b : α) :
    (l ++ [a]).set l.length b = l ++ [b] := by
  induction l with
  | nil => simp
  | cons c rest ih => simp [List.set, ih]

theorem getD_append_length {α : Type} (l : List α) (a d : α) :
    (l ++ [a]).getD l.length d = a := by
  induction l with
  | nil => simp
  | cons c rest ih => simpa using ih

theorem matchRepeat_eq (cls : Char → Bool) :
    ∀ (n : Nat) (cs : List Char),
      matchRepeat cls n cs = true ↔ cs.length = n ∧ cs.all cls = true := by
  intro n cs
  induction cs generalizing n with
  | nil => cases n <;> simp [matchRepeat]
  | cons c rest ih =>
      cases n with
      | zero => simp [matchRepeat]
      | succ k =>
          simp only [matchRepeat, Bool.and_eq_true, ih, List.length_cons,
            List.all_cons, Nat.succ_inj]
          tauto

/-! ### Claim theorems -/

/-- C2 counterexample: the claim says an 8-character all-digit string is not
valid, but `_is_valid_energy_reference` accepts `"12345678"` — the code's
second pattern `[A-Za-z0-9]{8}` has no at-least-one-letter requirement, unlike
the spec's wording (captured by `specIsValidReference`). -/
theorem c2_all_digit_counterexample :
    isValidEnergyReference (some "12345678") = true ∧
      specIsValidReference "12345678" = false := by
  constructor <;> decide

/-- C2 (amended): `_is_valid_energy_reference r` returns True iff `r` is
non-empty and its stripped form is a 14-digit numeric string or an 8-character
alphanumeric string — with no requirement of a letter, so an 8-character
all-digit string is valid. -/
theorem c2_validity_characterization (ref : String) :
    isValidEnergyReference (some ref) = true ↔
      ref ≠ "" ∧
        (((pyStrip ref).data.length = 14 ∧
            (pyStrip ref).data.all Char.isDigit = true) ∨
          ((pyStrip ref).data.length = 8 ∧
            (pyStrip ref).data.all isAsciiAlnum = true)) := by
  by_cases h : ref = "" <;>
    simp [isValidEnergyReference, truthy, h, matchRepeat_eq]

/-- C7 counterexample: when no WAL segment exists yet and the registering
`SADD` fails, `_append_to_wal` raises a `RuntimeError` to its caller
(`_ensure_wal_key` runs outside the `try` block), so the already-stored unit
of work is turned into a failure. -/
theorem c7_registration_raises :
    (appendToWal initState blankRecord "wal:run1" false true).2 = true := by
  decide

/-- C7 (amended): `_append_to_wal` raises exactly when the run's WAL segment
has not been created yet and its registration `SADD` fails; a failing `RPUSH`
is always logged and swallowed. -/
theorem c7_append_raise_characterization (st : ProcState) (r : Record)
    (name : String) (saddOk rpushOk : Bool) :
    (appendToWal st r name saddOk rpushOk).2 = true ↔
      st.walKey = none ∧ saddOk = false := by
  cases h : st.walKey <;> cases saddOk <;> cases rpushOk <;>
    simp [appendToWal, ensureWalKey, h]

/-- C3 counterexample: a full-export failure does not keep the WAL: the
`finally` block of `_convert_memory_to_excel` runs `_cleanup_wal`
unconditionally, so the registered segment `wal:a` is deleted and removed from
`wal:index` even though the export raised. -/
theorem c3_cleanup_despite_failed_export :
    (convertMemoryToExcel walDemoState true false true).2 = true ∧
      "wal:a" ∉ (convertMemoryToExcel walDemoState true false true).1.redis.walIndex ∧
      mapFind (convertMemoryToExcel walDemoState true false true).1.redis.walSegs
          "wal:a" = none := by
  refine ⟨by decide, by decide, by decide⟩

/-- C3 (amended): `_cleanup_wal` runs in the `finally` block of
`_convert_memory_to_excel`, hence after every export attempt — successful,
failed (the exception is re-raised afterwards), or skipped for lack of data —
the recovered and current WAL segments are cleaned up; the call raises iff
records were fetched and the export itself failed. -/
theorem c3_cleanup_always_runs (st : ProcState) (z e c : Bool) :
    (convertMemoryToExcel st z e c).1 = cleanupWal st c ∧
      ((convertMemoryToExcel st z e c).2 = true ↔
        (fetchAllRecords st z).isEmpty = false ∧ e = false) := by
  unfold convertMemoryToExcel
  by_cases hr : (fetchAllRecords st z).isEmpty <;> cases e <;> simp [hr]

/-- Membership in the `_collect_invalid_sources` fold. -/
theorem foldInvalid_mem (l : List Record) (acc : List String) (x : String) :
    x ∈ l.foldl
        (fun acc r =>
          match truthy r.source_file with
          | none => acc
          | some s =>
              if isValidEnergyReference r.energy_reference then acc
              else setInsert acc s)
        acc ↔
      x ∈ acc ∨ ∃ r ∈ l, truthy r.source_file = some x ∧
        isValidEnergyReference r.energy_reference = false := by
  induction l generalizing acc with
  | nil => simp
  | cons r rest ih =>
      simp only [List.foldl_cons, ih, List.mem_cons]
      cases hs : truthy r.source_file with
      | none =>
          constructor
          · rintro (h | ⟨r1, hr1, h1⟩)
            · exact Or.inl h
            · exact Or.inr ⟨r1, Or.inr hr1, h1⟩
          · rintro (h | ⟨r1, (rfl | hr1), h1, h2⟩)
            · exact Or.inl h
            · rw [hs] at h1; cases h1
            · exact Or.inr ⟨r1, hr1, h1, h2⟩
      | some s =>
          by_cases hv : isValidEnergyReference r.energy_reference
          · simp only [if_pos hv]
            constructor
            · rintro (h | ⟨r1, hr1, h1⟩)
              · exact Or.inl h
              · exact Or.inr ⟨r1, Or.inr hr1, h1⟩
            · rintro (h | ⟨r1, (rfl | hr1), h1, h2⟩)
              · exact Or.inl h
              · rw [hv] at h2; cases h2
              · exact Or.inr ⟨r1, hr1, h1, h2⟩
          · simp only [if_neg hv, mem_setInsert]
            constructor
            · rintro ((rfl | h) | ⟨r1, hr1, h1⟩)
              · exact Or.inr ⟨r, Or.inl rfl, hs,
                  Bool.eq_false_iff.mpr hv⟩
              · exact Or.inl h
              · exact Or.inr ⟨r1, Or.inr hr1, h1⟩
            · rintro (h | ⟨r1, (rfl | hr1), h1, h2⟩)
              · exact Or.inl (Or.inr h)
              · rw [hs] at h1
                exact Or.inl (Or.inl (Option.some_inj.mp h1).symm)
              · exact Or.inr ⟨r1, hr1, h1, h2⟩

/-- C6 (amended): `_collect_invalid_sources` returns exactly the union of the
explicitly failed sources and the sources of currently stored records with a
missing or invalid reference; a source not explicitly failed is therefore
never returned when its stored record has a valid reference, but an
explicitly failed source is returned even if a stored record for it holds a
valid reference. -/
theorem c6_collect_characterization (st : ProcState) (x : String) :
    x ∈ collectInvalidSources st ↔
      x ∈ st.failedSources ∨
        ∃ r ∈ st.results, getSrc r = some x ∧
          isValidEnergyReference r.energy_reference = false := by
  unfold collectInvalidSources getSrc
  exact foldInvalid_mem st.results st.failedSources x

/-- C6 counterexample: `a.pdf` is explicitly failed while its stored record
holds the valid reference `ZZZZ1234`; `_collect_invalid_sources` still
returns it, contradicting the claim's "never returns a source whose stored
record holds a valid business reference". -/
theorem c6_failed_source_despite_valid_record :
    "a.pdf" ∈ collectInvalidSources c6DemoState ∧
      getSrc (c6DemoState.results.getD 0 blankRecord) = some "a.pdf" ∧
      isValidEnergyReference
        (c6DemoState.results.getD 0 blankRecord).energy_reference = true := by
  refine ⟨by decide, by decide, by decide⟩

/-- C10 (confirmed): a record whose `source_file` is absent or empty is always
appended as a fresh entry (with any `_redis_id` write-back landing in the
appended dict) and `_store_result` returns `False`; conversely a `True`
(replace) result can only happen for a record carrying a truthy
`source_file`. -/
theorem c10_sourceless_always_appends :
    (∀ (st : ProcState) (r : Record) (t : Nat) (ok : Bool),
        getSrc r = none →
          (storeResult st r t ok).2 = false ∧
            (storeResult st r t ok).1.results =
              st.results ++ [(buildRecordIdentifier r st.uuidSupply).2.1]) ∧
      (∀ (st : ProcState) (r : Record) (t : Nat) (ok : Bool),
        (storeResult st r t ok).2 = true → getSrc r ≠ none) := by
  have append_part : ∀ (st : ProcState) (r : Record) (t : Nat) (ok : Bool),
      getSrc r = none →
        (storeResult st r t ok).2 = false ∧
          (storeResult st r t ok).1.results =
            st.results ++ [(buildRecordIdentifier r st.uuidSupply).2.1] := by
    intro st r t ok h
    unfold getSrc at h
    by_cases hv : isValidEnergyReference r.energy_reference <;>
      simp [storeResult, h, hv, set_append_length]
  refine ⟨append_part, ?_⟩
  intro st r t ok h hnone
  have h2 := (append_part st r t ok hnone).1
  rw [h] at h2
  exact Bool.noConfusion h2

/-- C10 witness at a concrete sourceless record. -/
theorem c10_sourceless_witness :
    (storeResult initState recNoSrc 0 true).2 = false :=
  (c10_sourceless_always_appends.1 initState recNoSrc 0 true rfl).1

/-- Exports of the primary pass, unfolded window by window: what accumulates
beyond the already-scheduled `exports` is exactly the boundary counter values
that are positive multiples of 20. -/
theorem runPrimary_exports_eq (m : Nat) :
    ∀ (n : Nat) (l : List Bool), l.length ≤ n →
      ∀ (count : Nat) (exports : List Nat),
        (runPrimary m l count exports).2 =
          exports ++ (boundaryCounts m l count).filter
            (fun k => decide (0 < k ∧ k % 20 = 0)) := by
  intro n
  induction n with
  | zero =>
      intro l hl count exports
      have hnil : l = [] := List.eq_nil_of_length_eq_zero (Nat.le_zero.mp hl)
      subst hnil
      simp [runPrimary, boundaryCounts]
  | succ n ih =>
      intro l hl count exports
      match l with
      | [] => simp [runPrimary, boundaryCounts]
      | c :: cs =>
          by_cases hm : m = 0
          · simp [runPrimary, boundaryCounts, hm]
          · have hdrop : ((c :: cs).drop m).length ≤ n := by
              simp only [List.length_cons] at hl
              simp only [List.length_drop, List.length_cons]
              omega
            simp only [runPrimary, boundaryCounts, dif_neg hm]
            rw [ih _ hdrop]
            set k := count + (((c :: cs).take m).filter id).length with hk
            by_cases hc : 0 < k ∧ k % 20 = 0 <;>
              simp [hc, List.filter_cons, List.append_assoc]

/-- C8 counterexample: window size 8, 24 successful files.  `processed_count`
increments by one per success in `_process_single_pdf`, so it reaches 20
during the third window; but the `% 20` check runs only at window boundaries
(counter values 8, 16, 24), so no incremental export is ever scheduled in
this run, contradicting "whenever the cumulative count reaches a multiple of
20, an incremental export is scheduled". -/
theorem c8_multiple_reached_without_export :
    20 ≤ (primaryPass 8 (List.replicate 24 true)).1 ∧
      (primaryPass 8 (List.replicate 24 true)).2 = [] := by
  have h : primaryPass 8 (List.replicate 24 true) = (24, []) := by
    simp [primaryPass, List.replicate, runPrimary]
  rw [h]
  exact ⟨by norm_num, rfl⟩

/-- C8 (amended): an incremental export is scheduled exactly at those window
boundaries of the primary pass where the cumulative success counter is a
positive multiple of 20; multiples of 20 reached strictly inside a window
trigger nothing. -/
theorem c8_exports_exactly_at_boundaries (m : Nat) (outcomes : List Bool) :
    (primaryPass m outcomes).2 =
      (boundaryCounts m outcomes 0).filter
        (fun k => decide (0 < k ∧ k % 20 = 0)) := by
  have h := runPrimary_exports_eq m outcomes.length outcomes le_rfl 0 []
  simpa [primaryPass] using h

/-- `_build_record_identifier` neither mutates the record nor consumes a
uuid when the record carries a truthy `source_file`. -/
theorem build_of_source (r : Record) (supply : Nat) (s : String)
    (hs : truthy r.source_file = some s) :
    buildRecordIdentifier r supply = (stableIdent r, r, supply) := by
  by_cases hv : isValidEnergyReference r.energy_reference <;>
    simp [buildRecordIdentifier, stableIdent, hv, hs]

/-- `_store_result` on a record with truthy source `s` not yet indexed:
exactly an append plus bookkeeping plus persistence with no previous
identifier. -/
theorem store_append_eq (st : ProcState) (r : Record) (t : Nat) (ok : Bool)
    (s : String) (hs : truthy r.source_file = some s)
    (hidx : mapFind st.indexBySource s = none) :
    storeResult st r t ok =
      ({ st with
          results := st.results ++ [r],
          seenRecordKeys := setInsert st.seenRecordKeys (computeRecordKey r),
          indexBySource := mapSet st.indexBySource s st.results.length,
          recordKeyBySource :=
            mapSet st.recordKeyBySource s (computeRecordKey r),
          processedReferences := refsAfter st.processedReferences r,
          redis := persistRecordToRedis st.redis r (stableIdent r)
            none none t ok },
        false) := by
  have hb : ∀ supply, buildRecordIdentifier r supply = (stableIdent r, r, supply) :=
    fun supply => build_of_source r supply s hs
  by_cases hv : isValidEnergyReference r.energy_reference <;>
    simp [storeResult, hs, hidx, hb, hv, refsAfter, set_append_length]

/-- `_store_result` on a record with truthy source `s` already indexed at
`idx`: exactly an in-place replace plus bookkeeping plus persistence carrying
the previous identifier and reference of the replaced record. -/
theorem store_replace_eq (st : ProcState) (r : Record) (t : Nat) (ok : Bool)
    (s : String) (idx : Nat) (hs : truthy r.source_file = some s)
    (hidx : mapFind st.indexBySource s = some idx) :
    storeResult st r t ok =
      ({ st with
          results := st.results.set idx r,
          seenRecordKeys := setInsert
            (match mapFind st.recordKeyBySource s with
             | some prevKey => setErase st.seenRecordKeys prevKey
             | none => st.seenRecordKeys)
            (computeRecordKey r),
          indexBySource := mapSet st.indexBySource s idx,
          recordKeyBySource :=
            mapSet st.recordKeyBySource s (computeRecordKey r),
          processedReferences := refsAfter st.processedReferences r,
          uuidSupply := (buildRecordIdentifier
            (st.results.getD idx blankRecord) st.uuidSupply).2.2,
          redis := persistRecordToRedis st.redis r (stableIdent r)
            (some (buildRecordIdentifier
              (st.results.getD idx blankRecord) st.uuidSupply).1)
            (st.results.getD idx blankRecord).energy_reference t ok },
        true) := by
  have hb : ∀ supply, buildRecordIdentifier r supply = (stableIdent r, r, supply) :=
    fun supply => build_of_source r supply s hs
  by_cases hv : isValidEnergyReference r.energy_reference <;>
    simp [storeResult, hs, hidx, hb, hv, refsAfter, List.set_set]

/-- Warnings of the ingestion fold: a name is warned about iff its
occurrence count (plus one if the accumulator map already knows it) reaches
two. -/
theorem sourceToPath_warn_mem (n : String) :
    ∀ (files : List PdfPath) (acc : List (String × PdfPath) × List String),
      (n ∈ (files.foldl
          (fun acc p =>
            match mapFind acc.1 p.name with
            | some _ => (mapSet acc.1 p.name p, acc.2 ++ [p.name])
            | none => (mapSet acc.1 p.name p, acc.2))
          acc).2 ↔
        n ∈ acc.2 ∨
          2 ≤ countName files n +
            (if (mapFind acc.1 n).isSome then 1 else 0)) := by
  intro files
  induction files with
  | nil =>
      intro acc
      have h0 : countName [] n = 0 := rfl
      rw [h0]
      constructor
      · exact Or.inl
      · rintro (h | h)
        · exact h
        · by_cases hk : (mapFind acc.1 n).isSome <;> simp [hk] at h
  | cons p fs ih =>
      intro acc
      by_cases hn : p.name = n
      · subst hn
        have hcount : countName (p :: fs) p.name = countName fs p.name + 1 := by
          simp [countName, List.filter_cons]
        cases hpk : mapFind acc.1 p.name with
        | some q =>
            simp only [List.foldl_cons, hpk, ih, hcount, mapFind_mapSet_self,
              Option.isSome_some, if_pos, List.mem_append, List.mem_singleton]
            constructor
            · intro h1
              right
              omega
            · intro h1
              left
              right
              trivial
        | none =>
            simp only [List.foldl_cons, hpk, ih, hcount, mapFind_mapSet_self,
              Option.isSome_some, if_pos, Option.isSome_none]
            constructor
            · rintro (h | h)
              · exact Or.inl h
              · right
                omega
            · rintro (h | h)
              · exact Or.inl h
              · right
                simp at h ⊢
                omega
      · have hne : n ≠ p.name := fun e => hn (Eq.symm e)
        have hcount : countName (p :: fs) n = countName fs n := by
          simp [countName, List.filter_cons, hn]
        have hfind : mapFind (mapSet acc.1 p.name p) n = mapFind acc.1 n :=
          mapFind_mapSet_ne acc.1 p.name n p hne
        cases hpk : mapFind acc.1 p.name with
        | some q =>
            simp only [List.foldl_cons, hpk, ih, hcount, hfind,
              List.mem_append, List.mem_singleton]
            constructor
            · rintro ((h | h) | h)
              · exact Or.inl h
              · exact absurd (Eq.symm h) hn
              · exact Or.inr h
            · rintro (h | h)
              · exact Or.inl (Or.inl h)
              · exact Or.inr h
        | none =>
            simp only [List.foldl_cons, hpk, ih, hcount, hfind]

/-- The mapping of the ingestion fold resolves each name to the last path
carrying it (or to the accumulator's entry when the name never occurs). -/
theorem sourceToPath_find_last (n : String) :
    ∀ (files : List PdfPath) (acc : List (String × PdfPath) × List String),
      mapFind (files.foldl
          (fun acc p =>
            match mapFind acc.1 p.name with
            | some _ => (mapSet acc.1 p.name p, acc.2 ++ [p.name])
            | none => (mapSet acc.1 p.name p, acc.2))
          acc).1 n =
        match lastWithName files n with
        | some q => some q
        | none => mapFind acc.1 n := by
  intro files
  induction files with
  | nil => intro acc; simp [lastWithName]
  | cons p fs ih =>
      intro acc
      have hmap : ∀ (acc : List (String × PdfPath) × List String),
          ((match mapFind acc.1 p.name with
            | some _ => (mapSet acc.1 p.name p, acc.2 ++ [p.name])
            | none => (mapSet acc.1 p.name p, acc.2)) :
              List (String × PdfPath) × List String).1 =
            mapSet acc.1 p.name p := by
        intro acc
        cases mapFind acc.1 p.name <;> rfl
      cases hlast : lastWithName fs n with
      | some q =>
          simp only [List.foldl_cons, ih, hlast, lastWithName]
      | none =>
          simp only [List.foldl_cons, ih, hlast, lastWithName]
          rw [hmap]
          by_cases hn : p.name = n
          · subst hn
            simp [mapFind_mapSet_self]
          · have hne : n ≠ p.name := fun e => hn (Eq.symm e)
            simp [mapFind_mapSet_ne acc.1 p.name n p hne, hn]

/-- C9 (confirmed): when two distinct input paths share a filename, ingestion
logs a warning (the name is warned about exactly because it occurs at least
twice) yet keeps processing: the later path replaces the earlier one in
`source_to_path`, and two records produced for that filename end up as a
single Record Store entry holding the later payload (the second store is a
replace, not a coexisting duplicate). -/
theorem c9_duplicate_filename_policy (files : List PdfPath) (n : String)
    (hdup : 2 ≤ countName files n) :
    n ∈ (buildSourceToPath files).2 ∧
      mapFind (buildSourceToPath files).1 n = lastWithName files n ∧
      (∀ (r1 r2 : Record) (t1 t2 : Nat) (ok1 ok2 : Bool),
        getSrc r1 = some n → getSrc r2 = some n →
          (storeResult (storeResult initState r1 t1 ok1).1 r2 t2 ok2).1.results
              = [r2] ∧
            (storeResult (storeResult initState r1 t1 ok1).1 r2 t2 ok2).2
              = true) := by
  refine ⟨?_, ?_, ?_⟩
  · rw [buildSourceToPath, sourceToPath_warn_mem]
    right
    simpa using hdup
  · rw [buildSourceToPath, sourceToPath_find_last]
    have h1 : 0 < countName files n := by omega
    cases hlast : lastWithName files n with
    | some q => simp
    | none =>
        exfalso
        have : countName files n = 0 := by
          clear hdup h1
          induction files with
          | nil => rfl
          | cons p fs ih =>
              rw [lastWithName] at hlast
              cases hrest : lastWithName fs n with
              | some q => rw [hrest] at hlast; cases hlast
              | none =>
                  rw [hrest] at hlast
                  by_cases hn : p.name = n
                  · rw [if_pos hn] at hlast; cases hlast
                  · simp [countName, List.filter_cons, hn, ih hrest];
                    exact (by
                      have := ih hrest
                      simpa [countName] using this)
        omega
  · intro r1 r2 t1 t2 ok1 ok2 h1 h2
    unfold getSrc at h1 h2
    have e1 := store_append_eq initState r1 t1 ok1 n h1 rfl
    have hidx2 : mapFind (storeResult initState r1 t1 ok1).1.indexBySource n
        = some 0 := by
      rw [e1]
      simp [initState, resetState, mapSet, mapFind]
    have e2 := store_replace_eq (storeResult initState r1 t1 ok1).1
      r2 t2 ok2 n 0 h2 hidx2
    rw [e2]
    refine ⟨?_, rfl⟩
    show ((storeResult initState r1 t1 ok1).1.results).set 0 r2 = [r2]
    rw [e1]
    simp [initState, resetState]

/-- C9 witness: two concrete paths sharing the filename `a.pdf`. -/
theorem c9_duplicate_filename_witness :
    "a.pdf" ∈ (buildSourceToPath
        [⟨"dirA", "a.pdf"⟩, ⟨"dirB", "a.pdf"⟩]).2 ∧
      mapFind (buildSourceToPath
          [⟨"dirA", "a.pdf"⟩, ⟨"dirB", "a.pdf"⟩]).1 "a.pdf" =
        lastWithName [⟨"dirA", "a.pdf"⟩, ⟨"dirB", "a.pdf"⟩] "a.pdf" ∧
      (storeResult (storeResult initState recA 0 true).1 recB 1 true).1.results
          = [recB] := by
  have h := c9_duplicate_filename_policy
    [⟨"dirA", "a.pdf"⟩, ⟨"dirB", "a.pdf"⟩] "a.pdf" (by decide)
  exact ⟨h.1, h.2.1, (h.2.2 recA recB 0 1 true true rfl rfl).1⟩

/-! ### List indexing lemmas -/

theorem getD_set_self {α : Type} :
    ∀ (l : List α) (i : Nat) (a d : α), i < l.length →
      (l.set i a).getD i d = a
  | [], i, a, d, h => absurd h (by simp)
  | b :: l, 0, a, d, _ => rfl
  | b :: l, i + 1, a, d, h =>
      getD_set_self l i a d (by simpa using h)

theorem getD_set_ne {α : Type} :
    ∀ (l : List α) (i j : Nat) (a d : α), i ≠ j →
      (l.set i a).getD j d = l.getD j d
  | [], _, _, _, _, _ => rfl
  | b :: l, 0, 0, a, d, h => absurd rfl h
  | b :: l, 0, j + 1, a, d, _ => rfl
  | b :: l, i + 1, 0, a, d, _ => rfl
  | b :: l, i + 1, j + 1, a, d, h =>
      getD_set_ne l i j a d (fun e => h (congrArg Nat.succ e))

theorem getD_append_lt {α : Type} :
    ∀ (l l2 : List α) (i : Nat) (d : α), i < l.length →
      (l ++ l2).getD i d = l.getD i d
  | [], _, i, d, h => absurd h (by simp)
  | b :: l, l2, 0, d, _ => rfl
  | b :: l, l2, i + 1, d, h =>
      getD_append_lt l l2 i d (by simpa using h)

theorem get?_set_ne {α : Type} :
    ∀ (l : List α) (i j : Nat) (a : α), i ≠ j →
      (l.set i a).get? j = l.get? j
  | [], _, _, _, _ => rfl
  | b :: l, 0, 0, a, h => absurd rfl h
  | b :: l, 0, j + 1, a, _ => rfl
  | b :: l, i + 1, 0, a, _ => rfl
  | b :: l, i + 1, j + 1, a, h =>
      get?_set_ne l i j a (fun e => h (congrArg Nat.succ e))

theorem get?_append_lt {α : Type} :
    ∀ (l l2 : List α) (i : Nat), i < l.length →
      (l ++ l2).get? i = l.get? i
  | [], _, i, h => absurd h (by simp)
  | b :: l, l2, 0, _ => rfl
  | b :: l, l2, i + 1, h =>
      get?_append_lt l l2 i (by simpa using h)

theorem get?_append_length {α : Type} :
    ∀ (l : List α) (a : α), (l ++ [a]).get? l.length = some a
  | [], a => rfl
  | b :: l, a => get?_append_length l a

theorem set_eq_of_get? {α : Type} :
    ∀ (l : List α) (i : Nat) (a : α), l.get? i = some a → l.set i a = l
  | [], i, a, h => by cases i <;> exact Option.noConfusion h
  | b :: l, 0, a, h => by
      rw [List.get?_cons_zero] at h
      injection h with hba
      show a :: l = b :: l
      rw [hba]
  | b :: l, i + 1, a, h => by
      rw [List.get?_cons_succ] at h
      show b :: l.set i a = b :: l
      rw [set_eq_of_get? l i a h]

theorem get?_of_getD {α : Type} :
    ∀ (l : List α) (i : Nat) (a d : α), i < l.length → l.getD i d = a →
      l.get? i = some a
  | [], i, a, d, h, _ => absurd h (by simp)
  | b :: l, 0, a, d, _, hg => by
      simp [List.getD] at hg
      simp [List.get?, hg]
  | b :: l, i + 1, a, d, h, hg => by
      simp only [List.get?]
      exact get?_of_getD l i a d (by simpa using h) (by simpa [List.getD] using hg)

/-! ### C1: reference tracking across a replace -/

/-- The `processed_refs` set after a replace whose previous identifier
differs and whose previous reference is valid: the new normalised reference
is added, then the previous one removed. -/
theorem persist_replace_refs (rs : RedisState) (r : Record) (idP : Ident)
    (prevRef : Option String) (t : Nat)
    (hvN : isValidEnergyReference r.energy_reference = true)
    (hvP : isValidEnergyReference prevRef = true)
    (hneq : ¬idP = stableIdent r) :
    (persistRecordToRedis rs r (stableIdent r) (some idP) prevRef t
        true).processedRefs =
      setErase
        (setInsert rs.processedRefs (normalizeRef (r.energy_reference.getD "")))
        (normalizeRef (prevRef.getD "")) := by
  simp [persistRecordToRedis, hvN, hvP, hneq]

/-- C1 (amended): storing two successful completions for the same source
where both carry valid but distinct (after normalisation) references leaves
the external `processed_refs` set holding the second reference and not the
first — but the in-memory `processed_references` set only ever grows:
`_store_result` adds the new reference and never removes the replaced one,
so the first reference is retained in memory. -/
theorem c1_replace_reference_tracking (st : ProcState) (r1 r2 : Record)
    (s a b : String) (t1 t2 : Nat)
    (hbound : ∀ s0 i, mapFind st.indexBySource s0 = some i →
      i < st.results.length)
    (hs1 : truthy r1.source_file = some s)
    (hs2 : truthy r2.source_file = some s)
    (ha : r1.energy_reference = some a)
    (hbref : r2.energy_reference = some b)
    (hv1 : isValidEnergyReference r1.energy_reference = true)
    (hv2 : isValidEnergyReference r2.energy_reference = true)
    (hab : normalizeRef a ≠ normalizeRef b) :
    normalizeRef b ∈
        (storeResult (storeResult st r1 t1 true).1 r2 t2
          true).1.redis.processedRefs ∧
      normalizeRef a ∉
        (storeResult (storeResult st r1 t1 true).1 r2 t2
          true).1.redis.processedRefs ∧
      normalizeRef b ∈
        (storeResult (storeResult st r1 t1 true).1 r2 t2
          true).1.processedReferences ∧
      normalizeRef a ∈
        (storeResult (storeResult st r1 t1 true).1 r2 t2
          true).1.processedReferences := by
  have hva : isValidEnergyReference (some a) = true := by
    rw [← ha]; exact hv1
  have hvb : isValidEnergyReference (some b) = true := by
    rw [← hbref]; exact hv2
  have hid1 : stableIdent r1 = Ident.ref (normalizeRef a) := by
    simp [stableIdent, buildRecordIdentifier, ha, hva]
  have hid2 : stableIdent r2 = Ident.ref (normalizeRef b) := by
    simp [stableIdent, buildRecordIdentifier, hbref, hvb]
  obtain ⟨idx, hidx1, hres1, hpref1⟩ :
      ∃ idx, mapFind (storeResult st r1 t1 true).1.indexBySource s = some idx ∧
        (storeResult st r1 t1 true).1.results.getD idx blankRecord = r1 ∧
        (storeResult st r1 t1 true).1.processedReferences =
          setInsert st.processedReferences (normalizeRef a) := by
    cases hfind : mapFind st.indexBySource s with
    | none =>
        refine ⟨st.results.length, ?_, ?_, ?_⟩ <;>
          rw [store_append_eq st r1 t1 true s hs1 hfind]
        · exact mapFind_mapSet_self _ _ _
        · exact getD_append_length _ _ _
        · show refsAfter st.processedReferences r1 =
            setInsert st.processedReferences (normalizeRef a)
          unfold refsAfter
          rw [if_pos hv1, ha]
          rfl
    | some i =>
        refine ⟨i, ?_, ?_, ?_⟩ <;>
          rw [store_replace_eq st r1 t1 true s i hs1 hfind]
        · exact mapFind_mapSet_self _ _ _
        · exact getD_set_self _ _ _ _ (hbound s i hfind)
        · show refsAfter st.processedReferences r1 =
            setInsert st.processedReferences (normalizeRef a)
          unfold refsAfter
          rw [if_pos hv1, ha]
          rfl
  rw [store_replace_eq (storeResult st r1 t1 true).1 r2 t2 true s idx hs2 hidx1]
  simp only [hres1]
  have hb1 := build_of_source r1 (storeResult st r1 t1 true).1.uuidSupply s hs1
  rw [hb1]
  have hneq : ¬stableIdent r1 = stableIdent r2 := by
    rw [hid1, hid2]
    intro h
    exact hab (Ident.ref.injEq _ _ ▸ h)
  have hrefs := persist_replace_refs (storeResult st r1 t1 true).1.redis r2
    (stableIdent r1) r1.energy_reference t2 hv2 hv1 hneq
  refine ⟨?_, ?_, ?_, ?_⟩
  · rw [hrefs]
    rw [mem_setErase]
    refine ⟨?_, ?_⟩
    · rw [mem_setInsert]
      exact Or.inl (by rw [hbref]; rfl)
    · rw [ha]
      exact fun e => hab (Eq.symm e)
  · rw [hrefs]
    rw [mem_setErase]
    rintro ⟨-, hne⟩
    rw [ha] at hne
    exact hne rfl
  · show normalizeRef b ∈ refsAfter
      (storeResult st r1 t1 true).1.processedReferences r2
    rw [refsAfter, if_pos hv2, hbref]
    rw [mem_setInsert]
    exact Or.inl rfl
  · show normalizeRef a ∈ refsAfter
      (storeResult st r1 t1 true).1.processedReferences r2
    rw [refsAfter, if_pos hv2, hpref1]
    rw [mem_setInsert, mem_setInsert]
    exact Or.inr (Or.inl rfl)

/-- C1 counterexample: after `a.pdf` is stored with reference
`12345678901234` and then replaced by a record carrying `ZZZZ1234`, the
in-memory `processed_references` set still contains the first reference —
`_store_result` never removes the replaced reference from it, contradicting
the claim that the in-memory set no longer contains the first reference. -/
theorem c1_inmemory_retains_first_reference :
    "12345678901234" ∈
      (storeResult (storeResult initState recA 0 true).1 recB 1
        true).1.processedReferences ∧
      "ZZZZ1234" ∈
        (storeResult (storeResult initState recA 0 true).1 recB 1
          true).1.redis.processedRefs ∧
      "12345678901234" ∉
        (storeResult (storeResult initState recA 0 true).1 recB 1
          true).1.redis.processedRefs := by
  refine ⟨by decide, by decide, by decide⟩

/-- C1 witness: the amended theorem instantiated at the two concrete
completions for `a.pdf`. -/
theorem c1_replace_witness :
    normalizeRef "ZZZZ1234" ∈
        (storeResult (storeResult initState recA 0 true).1 recB 1
          true).1.redis.processedRefs ∧
      normalizeRef "12345678901234" ∉
        (storeResult (storeResult initState recA 0 true).1 recB 1
          true).1.redis.processedRefs := by
  have h := c1_replace_reference_tracking initState recA recB
    "a.pdf" "12345678901234" "ZZZZ1234" 0 1
    (by intro s0 i h0; simp [initState, resetState, mapFind] at h0)
    rfl rfl rfl rfl (by decide) (by decide) (by decide)
  exact ⟨h.1, h.2.1⟩

/-! ### C5: replace semantics and the at-most-one-per-source invariant -/

/-- `_build_record_identifier` only ever touches the `_redis_id` entry of the
dict: `source_file` and `energy_reference` are preserved. -/
theorem build_preserves_fields (r : Record) (supply : Nat) :
    (buildRecordIdentifier r supply).2.1.source_file = r.source_file ∧
      (buildRecordIdentifier r supply).2.1.energy_reference =
        r.energy_reference := by
  unfold buildRecordIdentifier
  by_cases hv : isValidEnergyReference r.energy_reference
  · simp [hv]
  · cases hsf : truthy r.source_file with
    | some src => simp [hv, hsf]
    | none =>
        cases hid : truthy r.redisId with
        | some e => simp [hv, hsf, hid]
        | none => simp [hv, hsf, hid]

/-- `_store_result` on a record with a falsy source: exactly an append of the
(possibly `_redis_id`-enriched) dict plus bookkeeping plus persistence. -/
theorem store_sourceless_eq (st : ProcState) (r : Record) (t : Nat)
    (ok : Bool) (hs : truthy r.source_file = none) :
    storeResult st r t ok =
      ({ st with
          results := st.results ++
            [(buildRecordIdentifier r st.uuidSupply).2.1],
          seenRecordKeys := setInsert st.seenRecordKeys (computeRecordKey r),
          processedReferences := refsAfter st.processedReferences r,
          uuidSupply := (buildRecordIdentifier r st.uuidSupply).2.2,
          redis := persistRecordToRedis st.redis
            (buildRecordIdentifier r st.uuidSupply).2.1
            (buildRecordIdentifier r st.uuidSupply).1 none none t ok },
        false) := by
  by_cases hv : isValidEnergyReference r.energy_reference <;>
    simp [storeResult, hs, hv, refsAfter, set_append_length]

/-- The reset state satisfies the source-index invariant. -/
theorem inv_resetState (redis : RedisState) :
    SourceIndexInv (resetState redis) := by
  constructor
  · intro s i h
    simp [resetState, mapFind] at h
  · intro i s h _
    simp [resetState] at h

/-- `_store_result` preserves the source-index invariant. -/
theorem inv_preserved (st : ProcState) (r : Record) (t : Nat) (ok : Bool)
    (h : SourceIndexInv st) : SourceIndexInv (storeResult st r t ok).1 := by
  obtain ⟨h1, h2⟩ := h
  cases hs : truthy r.source_file with
  | none =>
      rw [store_sourceless_eq st r t ok hs]
      have hpres := (build_preserves_fields r st.uuidSupply).1
      constructor
      · intro s i hfind
        obtain ⟨hlt, hsrc⟩ := h1 s i hfind
        refine ⟨by simpa using Nat.lt_succ_of_lt hlt, ?_⟩
        rw [getD_append_lt st.results _ i blankRecord hlt]
        exact hsrc
      · intro i s hi hsrc
        simp only [List.length_append, List.length_cons,
          List.length_nil] at hi
        by_cases hi2 : i < st.results.length
        · rw [getD_append_lt st.results _ i blankRecord hi2] at hsrc
          exact h2 i s hi2 hsrc
        · have hieq : i = st.results.length := by omega
          subst hieq
          rw [getD_append_length] at hsrc
          unfold getSrc at hsrc
          rw [hpres, hs] at hsrc
          cases hsrc
  | some s0 =>
      cases hfind : mapFind st.indexBySource s0 with
      | none =>
          rw [store_append_eq st r t ok s0 hs hfind]
          constructor
          · intro s i hf
            by_cases hss : s = s0
            · subst hss
              rw [mapFind_mapSet_self] at hf
              injection hf with hf
              subst hf
              refine ⟨by simp, ?_⟩
              rw [getD_append_length]
              unfold getSrc
              rw [hs]
            · rw [mapFind_mapSet_ne _ _ _ _ hss] at hf
              obtain ⟨hlt, hsrc⟩ := h1 s i hf
              refine ⟨by simpa using Nat.lt_succ_of_lt hlt, ?_⟩
              rw [getD_append_lt st.results _ i blankRecord hlt]
              exact hsrc
          · intro i s hi hsrc
            simp only [List.length_append, List.length_cons,
              List.length_nil] at hi
            by_cases hi2 : i < st.results.length
            · rw [getD_append_lt st.results _ i blankRecord hi2] at hsrc
              have hold := h2 i s hi2 hsrc
              by_cases hss : s = s0
              · subst hss
                rw [hfind] at hold
                cases hold
              · rw [mapFind_mapSet_ne _ _ _ _ hss]
                exact hold
            · have hieq : i = st.results.length := by omega
              subst hieq
              rw [getD_append_length] at hsrc
              unfold getSrc at hsrc
              rw [hs] at hsrc
              injection hsrc with hsrc
              subst hsrc
              rw [mapFind_mapSet_self]
      | some idx =>
          obtain ⟨hlt, hsrc0⟩ := h1 s0 idx hfind
          rw [store_replace_eq st r t ok s0 idx hs hfind]
          constructor
          · intro s i hf
            by_cases hss : s = s0
            · subst hss
              rw [mapFind_mapSet_self] at hf
              injection hf with hf
              subst hf
              refine ⟨by simpa using hlt, ?_⟩
              rw [getD_set_self st.results _ _ _ hlt]
              unfold getSrc
              rw [hs]
            · rw [mapFind_mapSet_ne _ _ _ _ hss] at hf
              obtain ⟨hlt2, hsrc2⟩ := h1 s i hf
              refine ⟨by simpa using hlt2, ?_⟩
              have hne : idx ≠ i := by
                intro he
                subst he
                rw [hsrc0] at hsrc2
                injection hsrc2 with hsrc2
                exact hss (Eq.symm hsrc2)
              rw [getD_set_ne st.results _ _ _ _ hne]
              exact hsrc2
          · intro i s hi hsrc
            simp only [List.length_set] at hi
            by_cases hii : idx = i
            · subst hii
              rw [getD_set_self st.results _ _ _ hlt] at hsrc
              unfold getSrc at hsrc
              rw [hs] at hsrc
              injection hsrc with hsrc
              subst hsrc
              rw [mapFind_mapSet_self]
            · rw [getD_set_ne st.results _ _ _ _ hii] at hsrc
              have hold := h2 i s hi hsrc
              by_cases hss : s = s0
              · subst hss
                rw [hfind] at hold
                injection hold with hold
                exact absurd hold hii
              · rw [mapFind_mapSet_ne _ _ _ _ hss]
                exact hold

/-- The invariant after any sequence of stores from the reset state. -/
theorem inv_storeMany :
    ∀ (inputs : List (Record × Nat × Bool)) (st : ProcState),
      SourceIndexInv st → SourceIndexInv (storeMany st inputs)
  | [], _, h => h
  | (r, t, ok) :: rest, st, h =>
      inv_storeMany rest _ (inv_preserved st r t ok h)

/-- C5 (confirmed): after any sequence of `_store_result` calls from the
reset state, at most one record is live per truthy `source_file`; the next
store returns `True` exactly when its record carries a truthy source already
present in the index, in which case the stored list is an in-place
`List.set` of the same length; a `False` return is an append that grows the
list by one. -/
theorem c5_replace_semantics (inputs : List (Record × Nat × Bool))
    (r : Record) (t : Nat) (ok : Bool) :
    (∀ i j s,
        i < (storeMany initState inputs).results.length →
        j < (storeMany initState inputs).results.length →
        getSrc ((storeMany initState inputs).results.getD i blankRecord)
          = some s →
        getSrc ((storeMany initState inputs).results.getD j blankRecord)
          = some s →
        i = j) ∧
      ((storeResult (storeMany initState inputs) r t ok).2 = true ↔
        ∃ s, getSrc r = some s ∧
          mapFind (storeMany initState inputs).indexBySource s ≠ none) ∧
      (∀ s idx, getSrc r = some s →
        mapFind (storeMany initState inputs).indexBySource s = some idx →
          (storeResult (storeMany initState inputs) r t ok).1.results =
            (storeMany initState inputs).results.set idx r ∧
          (storeResult (storeMany initState inputs) r t ok).1.results.length
            = (storeMany initState inputs).results.length) ∧
      ((storeResult (storeMany initState inputs) r t ok).2 = false →
        (storeResult (storeMany initState inputs) r t ok).1.results.length
          = (storeMany initState inputs).results.length + 1) := by
  have hinv := inv_storeMany inputs initState (inv_resetState emptyRedis)
  refine ⟨?_, ?_, ?_, ?_⟩
  · intro i j s hi hj hsi hsj
    have e1 := hinv.2 i s hi hsi
    have e2 := hinv.2 j s hj hsj
    rw [e1] at e2
    injection e2
  · constructor
    · intro hrep
      cases hs : truthy r.source_file with
      | none =>
          rw [store_sourceless_eq _ r t ok hs] at hrep
          cases hrep
      | some s =>
          cases hfind : mapFind (storeMany initState inputs).indexBySource s
            with
          | none =>
              rw [store_append_eq _ r t ok s hs hfind] at hrep
              cases hrep
          | some idx =>
              exact ⟨s, hs, by rw [hfind]; exact fun e => Option.noConfusion e⟩
    · rintro ⟨s, hs, hne⟩
      cases hfind : mapFind (storeMany initState inputs).indexBySource s with
      | none => exact absurd hfind hne
      | some idx =>
          rw [store_replace_eq _ r t ok s idx hs hfind]
  · intro s idx hsrc hfind
    rw [store_replace_eq _ r t ok s idx hsrc hfind]
    exact ⟨rfl, by simp⟩
  · intro hrep
    cases hs : truthy r.source_file with
    | none =>
        rw [store_sourceless_eq _ r t ok hs]
        simp
    | some s =>
        cases hfind : mapFind (storeMany initState inputs).indexBySource s
          with
        | none =>
            rw [store_append_eq _ r t ok s hs hfind]
            simp
        | some idx =>
            rw [store_replace_eq _ r t ok s idx hs hfind] at hrep
            cases hrep

/-- C5 witness: after storing the record for `a.pdf`, storing a second record
for the same source reports a replace. -/
theorem c5_replace_witness :
    (storeResult (storeMany initState [(recA, 0, true)]) recB 1 true).2
      = true := by
  have h := c5_replace_semantics [(recA, 0, true)] recB 1 true
  exact h.2.1.mpr ⟨"a.pdf", rfl, by decide⟩

/-! ### C4: idempotent WAL replay -/

theorem getD_of_get? {α : Type} :
    ∀ (l : List α) (i : Nat) (a d : α), l.get? i = some a → l.getD i d = a
  | [], i, a, d, h => by cases i <;> exact Option.noConfusion h
  | b :: l, 0, a, d, h => by
      rw [List.get?_cons_zero] at h
      injection h with h
  | b :: l, i + 1, a, d, h => by
      rw [List.get?_cons_succ] at h
      rw [List.getD_cons_succ]
      exact getD_of_get? l i a d h

theorem get?_some_lt {α : Type} :
    ∀ (l : List α) (i : Nat) (a : α), l.get? i = some a → i < l.length
  | [], i, a, h => by cases i <;> exact Option.noConfusion h
  | b :: l, 0, a, _ => by simp
  | b :: l, i + 1, a, h => by
      rw [List.get?_cons_succ] at h
      simpa using get?_some_lt l i a h

/-- Re-persisting a record already resolved by its identifier with its own
score and tracked reference is a no-op on the external store (the previous
identifier equals the new one, so no deletion branch runs). -/
theorem persist_noop (rs : RedisState) (r : Record) (idN : Ident)
    (prevRef : Option String) (p : String) (t : Nat)
    (hp : truthy r.processed_at = some p)
    (hrec : mapFind rs.records idN = some r)
    (hord : mapFind rs.order idN = some (Score.iso p))
    (hmem : isValidEnergyReference r.energy_reference = true →
      normalizeRef (r.energy_reference.getD "") ∈ rs.processedRefs) :
    persistRecordToRedis rs r idN (some idN) prevRef t true = rs := by
  by_cases hv : isValidEnergyReference r.energy_reference
  · simp [persistRecordToRedis, hp, hv, mapSet_of_find hrec,
      mapSet_of_find hord, setInsert_of_mem (hmem hv)]
  · simp [persistRecordToRedis, hp, hv, mapSet_of_find hrec,
      mapSet_of_find hord]

/-- Persisting with no previous identifier: the three write commands only. -/
theorem persist_fresh (rs : RedisState) (q : Record) (idN : Ident) (t : Nat) :
    persistRecordToRedis rs q idN none none t true =
      { rs with
          records := mapSet rs.records idN q,
          order := mapSet rs.order idN
            (match truthy q.processed_at with
             | some tp => Score.iso tp
             | none => Score.clock t),
          processedRefs := refsAfter rs.processedRefs q } := by
  by_cases hv : isValidEnergyReference q.energy_reference <;>
    simp [persistRecordToRedis, hv, refsAfter]

/-- Storing a record that is a fixpoint of the store (second-pass replay):
the call is a replace that rewrites every component to itself; only the dedup
key is erased and reinserted. -/
theorem store_fixed (st : ProcState) (r : Record) (t : Nat) (s : String)
    (idx : Nat) (p : String)
    (hs : truthy r.source_file = some s)
    (hp : truthy r.processed_at = some p)
    (hidx : mapFind st.indexBySource s = some idx)
    (hget : st.results.get? idx = some r)
    (hrk : mapFind st.recordKeyBySource s = some (RKey.source s))
    (hrec : mapFind st.redis.records (stableIdent r) = some r)
    (hord : mapFind st.redis.order (stableIdent r) = some (Score.iso p))
    (hmem : isValidEnergyReference r.energy_reference = true →
      normalizeRef (r.energy_reference.getD "") ∈ st.redis.processedRefs ∧
      normalizeRef (r.energy_reference.getD "") ∈ st.processedReferences) :
    storeResult st r t true =
      ({ st with seenRecordKeys := touchKey st.seenRecordKeys (RKey.source s) },
        true) := by
  have hgetD : st.results.getD idx blankRecord = r :=
    getD_of_get? st.results idx r blankRecord hget
  have hkey : computeRecordKey r = RKey.source s := by
    simp [computeRecordKey, hs]
  have hbuild : buildRecordIdentifier r st.uuidSupply =
      (stableIdent r, r, st.uuidSupply) :=
    build_of_source r st.uuidSupply s hs
  have hprefs : refsAfter st.processedReferences r = st.processedReferences := by
    unfold refsAfter
    by_cases hv : isValidEnergyReference r.energy_reference
    · rw [if_pos hv]
      exact setInsert_of_mem (hmem hv).2
    · rw [if_neg hv]
  rw [store_replace_eq st r t true s idx hs hidx]
  unfold touchKey
  simp only [hgetD, hbuild, hkey, hrk, set_eq_of_get? st.results idx r hget,
    mapSet_of_find hidx, mapSet_of_find hrk, hprefs,
    persist_noop st.redis r (stableIdent r) r.energy_reference p t hp hrec
      hord (fun hv => (hmem hv).1)]

/-- One append store of a record with a fresh, distinct source and distinct
identifier preserves another record's fixpoint condition. -/
theorem fixed_preserved_append (st : ProcState) (r q : Record) (t : Nat)
    (sq : String)
    (hq : truthy q.source_file = some sq)
    (hfind : mapFind st.indexBySource sq = none)
    (hfix : FixedCond st r)
    (hsrcne : truthy r.source_file ≠ truthy q.source_file)
    (hidne : stableIdent r ≠ stableIdent q) :
    FixedCond (storeResult st q t true).1 r := by
  obtain ⟨s, idx, p, hs, hp, hidx, hget, hrk, hseen, hrec, hord, hmem⟩ := hfix
  have hssq : s ≠ sq := by
    intro he
    rw [hs, hq, he] at hsrcne
    exact hsrcne rfl
  have hlt := get?_some_lt st.results idx r hget
  rw [store_append_eq st q t true sq hq hfind]
  refine ⟨s, idx, p, hs, hp, ?_, ?_, ?_, ?_, ?_, ?_, ?_⟩
  · show mapFind (mapSet st.indexBySource sq st.results.length) s = some idx
    rw [mapFind_mapSet_ne _ _ _ _ hssq]
    exact hidx
  · show (st.results ++ [q]).get? idx = some r
    rw [get?_append_lt st.results [q] idx hlt]
    exact hget
  · show mapFind (mapSet st.recordKeyBySource sq (computeRecordKey q)) s
      = some (RKey.source s)
    rw [mapFind_mapSet_ne _ _ _ _ hssq]
    exact hrk
  · show RKey.source s ∈ setInsert st.seenRecordKeys (computeRecordKey q)
    rw [mem_setInsert]
    exact Or.inr hseen
  · show mapFind (persistRecordToRedis st.redis q (stableIdent q) none none
      t true).records (stableIdent r) = some r
    rw [persist_fresh]
    show mapFind (mapSet st.redis.records (stableIdent q) q) (stableIdent r)
      = some r
    rw [mapFind_mapSet_ne _ _ _ _ hidne]
    exact hrec
  · show mapFind (persistRecordToRedis st.redis q (stableIdent q) none none
      t true).order (stableIdent r) = some (Score.iso p)
    rw [persist_fresh]
    show mapFind (mapSet st.redis.order (stableIdent q) _) (stableIdent r)
      = some (Score.iso p)
    rw [mapFind_mapSet_ne _ _ _ _ hidne]
    exact hord
  · intro hv
    obtain ⟨hm1, hm2⟩ := hmem hv
    constructor
    · show normalizeRef (r.energy_reference.getD "") ∈
        (persistRecordToRedis st.redis q (stableIdent q) none none
          t true).processedRefs
      rw [persist_fresh]
      show normalizeRef (r.energy_reference.getD "") ∈
        refsAfter st.redis.processedRefs q
      unfold refsAfter
      by_cases hvq : isValidEnergyReference q.energy_reference
      · rw [if_pos hvq, mem_setInsert]
        exact Or.inr hm1
      · rw [if_neg hvq]
        exact hm1
    · show normalizeRef (r.energy_reference.getD "") ∈
        refsAfter st.processedReferences q
      unfold refsAfter
      by_cases hvq : isValidEnergyReference q.energy_reference
      · rw [if_pos hvq, mem_setInsert]
        exact Or.inr hm2
      · rw [if_neg hvq]
        exact hm2

/-- A fixpoint record stays a fixpoint while a list of fresh-source,
fresh-identifier records is replayed (each store is an append). -/
theorem replay_preserves_fixed :
    ∀ (rest : List Record) (st : ProcState) (t : Nat) (r : Record),
      FixedCond st r →
      (∀ q ∈ rest, ∃ sq, truthy q.source_file = some sq ∧
        mapFind st.indexBySource sq = none ∧
        truthy r.source_file ≠ truthy q.source_file ∧
        stableIdent r ≠ stableIdent q) →
      rest.Pairwise
        (fun a b => truthy a.source_file ≠ truthy b.source_file) →
      FixedCond (replayWal st rest t) r
  | [], _, _, _, hfix, _, _ => hfix
  | q :: rest2, st, t, r, hfix, hq, hpw => by
      obtain ⟨sq, hsq, hfind, hsrcne, hidne⟩ :=
        hq q (List.mem_cons_self q rest2)
      have hfix1 :=
        fixed_preserved_append st r q t sq hsq hfind hfix hsrcne hidne
      have hpw1 := List.pairwise_cons.mp hpw
      rw [replayWal]
      apply replay_preserves_fixed rest2 _ (t + 1) r hfix1
      · intro q2 hq2
        obtain ⟨sq2, hsq2, hfind2, hsrcne2, hidne2⟩ :=
          hq q2 (List.mem_cons_of_mem q hq2)
        refine ⟨sq2, hsq2, ?_, hsrcne2, hidne2⟩
        rw [store_append_eq st q t true sq hsq hfind]
        show mapFind (mapSet st.indexBySource sq st.results.length) sq2 = none
        have hne : sq2 ≠ sq := by
          have hne0 := hpw1.1 q2 hq2
          intro he
          exact hne0 (by rw [hsq, hsq2, he])
        rw [mapFind_mapSet_ne _ _ _ _ hne]
        exact hfind2
      · exact hpw1.2

/-- Replaying a segment of sourceful, timestamped records with pairwise
distinct sources and identifiers from a state whose index knows none of them
leaves every record of the segment as a fixpoint of the resulting state. -/
theorem replay_establishes :
    ∀ (seg : List Record) (st : ProcState) (t : Nat),
      (∀ r ∈ seg, ∃ s p, truthy r.source_file = some s ∧
        truthy r.processed_at = some p ∧
        mapFind st.indexBySource s = none) →
      seg.Pairwise
        (fun a b => truthy a.source_file ≠ truthy b.source_file) →
      seg.Pairwise (fun a b => stableIdent a ≠ stableIdent b) →
      ∀ r ∈ seg, FixedCond (replayWal st seg t) r
  | [], _, _, _, _, _ => by intro r hr; cases hr
  | r0 :: rest, st, t, hall, hpw, hpid => by
      obtain ⟨s0, p0, hs0, hp0, hfind0⟩ :=
        hall r0 (List.mem_cons_self r0 rest)
      have hpw1 := List.pairwise_cons.mp hpw
      have hpid1 := List.pairwise_cons.mp hpid
      have e0 := store_append_eq st r0 t true s0 hs0 hfind0
      have hkey0 : computeRecordKey r0 = RKey.source s0 := by
        simp [computeRecordKey, hs0]
      have hfix0 : FixedCond (storeResult st r0 t true).1 r0 := by
        rw [e0]
        refine ⟨s0, st.results.length, p0, hs0, hp0, ?_, ?_, ?_, ?_, ?_, ?_,
          ?_⟩
        · exact mapFind_mapSet_self _ _ _
        · exact get?_append_length _ _
        · show mapFind
            (mapSet st.recordKeyBySource s0 (computeRecordKey r0)) s0
            = some (RKey.source s0)
          rw [mapFind_mapSet_self, hkey0]
        · show RKey.source s0 ∈
            setInsert st.seenRecordKeys (computeRecordKey r0)
          rw [mem_setInsert, hkey0]
          exact Or.inl rfl
        · show mapFind (persistRecordToRedis st.redis r0 (stableIdent r0)
            none none t true).records (stableIdent r0) = some r0
          rw [persist_fresh]
          exact mapFind_mapSet_self _ _ _
        · show mapFind (persistRecordToRedis st.redis r0 (stableIdent r0)
            none none t true).order (stableIdent r0) = some (Score.iso p0)
          rw [persist_fresh]
          simp only [hp0]
          exact mapFind_mapSet_self _ _ _
        · intro hv
          constructor
          · show normalizeRef (r0.energy_reference.getD "") ∈
              (persistRecordToRedis st.redis r0 (stableIdent r0)
                none none t true).processedRefs
            rw [persist_fresh]
            show normalizeRef (r0.energy_reference.getD "") ∈
              refsAfter st.redis.processedRefs r0
            unfold refsAfter
            rw [if_pos hv, mem_setInsert]
            exact Or.inl rfl
          · show normalizeRef (r0.energy_reference.getD "") ∈
              refsAfter st.processedReferences r0
            unfold refsAfter
            rw [if_pos hv, mem_setInsert]
            exact Or.inl rfl
      intro r hr
      rw [replayWal]
      rcases List.mem_cons.mp hr with rfl | hr2
      · apply replay_preserves_fixed rest _ (t + 1) r hfix0
        · intro q hq
          obtain ⟨sq, pq, hsq, hpq, hfindq⟩ :=
            hall q (List.mem_cons_of_mem r hq)
          refine ⟨sq, hsq, ?_, hpw1.1 q hq, hpid1.1 q hq⟩
          rw [e0]
          show mapFind (mapSet st.indexBySource s0 st.results.length) sq
            = none
          have hne : sq ≠ s0 := by
            have hne0 := hpw1.1 q hq
            intro he
            exact hne0 (by rw [hs0, hsq, he])
          rw [mapFind_mapSet_ne _ _ _ _ hne]
          exact hfindq
        · exact hpw1.2
      · apply replay_establishes rest _ (t + 1) ?_ hpw1.2 hpid1.2 r hr2
        intro q hq
        obtain ⟨sq, pq, hsq, hpq, hfindq⟩ :=
          hall q (List.mem_cons_of_mem r0 hq)
        refine ⟨sq, pq, hsq, hpq, ?_⟩
        rw [e0]
        show mapFind (mapSet st.indexBySource s0 st.results.length) sq = none
        have hne : sq ≠ s0 := by
          have hne0 := hpw1.1 q hq
          intro he
          exact hne0 (by rw [hs0, hsq, he])
        rw [mapFind_mapSet_ne _ _ _ _ hne]
        exact hfindq

/-- Replaying a segment all of whose records are fixpoints changes nothing
except erase-and-reinsert of the dedup keys (a set-level no-op), and every
store of the pass is a replace with an identical payload. -/
theorem replay_fixed_pass :
    ∀ (seg : List Record) (st : ProcState) (t : Nat),
      (∀ r ∈ seg, FixedCond st r) →
      scrubSeen (replayWal st seg t) = scrubSeen st ∧
        (∀ k, k ∈ (replayWal st seg t).seenRecordKeys ↔
          k ∈ st.seenRecordKeys) ∧
        allReplaceIdentical st seg t = true
  | [], _, _, _ => ⟨rfl, fun _ => Iff.rfl, rfl⟩
  | r :: rest, st, t, hall => by
      obtain ⟨s, idx, p, hs, hp, hidx, hget, hrk, hseen, hrec, hord, hmem⟩ :=
        hall r (List.mem_cons_self r rest)
      have hstep :=
        store_fixed st r t s idx p hs hp hidx hget hrk hrec hord hmem
      have hall1 : ∀ q ∈ rest, FixedCond (storeResult st r t true).1 q := by
        intro q hq
        rw [hstep]
        obtain ⟨sq, idxq, pq, hsq, hpq, hidxq, hgetq, hrkq, hseenq, hrecq,
          hordq, hmemq⟩ := hall q (List.mem_cons_of_mem r hq)
        refine ⟨sq, idxq, pq, hsq, hpq, hidxq, hgetq, hrkq, ?_, hrecq,
          hordq, hmemq⟩
        show RKey.source sq ∈ touchKey st.seenRecordKeys (RKey.source s)
        unfold touchKey
        exact (mem_setInsert_setErase hseen (RKey.source sq)).mpr hseenq
      have ih := replay_fixed_pass rest (storeResult st r t true).1 (t + 1)
        hall1
      refine ⟨?_, ?_, ?_⟩
      · rw [replayWal]
        rw [ih.1, hstep]
        rfl
      · intro k
        rw [replayWal]
        refine Iff.trans (ih.2.1 k) ?_
        rw [hstep]
        show k ∈ touchKey st.seenRecordKeys (RKey.source s) ↔
          k ∈ st.seenRecordKeys
        unfold touchKey
        exact mem_setInsert_setErase hseen k
      · show allReplaceIdentical st (r :: rest) t = true
        rw [allReplaceIdentical]
        simp only [getSrc, hs, hidx, hget]
        have hsnd : (storeResult st r t true).2 = true := by rw [hstep]
        simp [hsnd, ih.2.2]

/-- C4 counterexample: the claim quantifies over any record sequence, but a
record without a `source_file` is appended afresh on every replay: replaying
a one-record segment twice leaves two entries where one pass leaves one. -/
theorem c4_sourceless_replay_duplicates :
    (replayWal (replayWal initState [recNoSrc] 0) [recNoSrc] 1).results.length
        = 2 ∧
      (replayWal initState [recNoSrc] 0).results.length = 1 := by
  refine ⟨by decide, by decide⟩

/-- C4 (amended): for WAL segments whose records all carry a truthy
`source_file` and `processed_at`, with pairwise distinct sources and pairwise
distinct record identifiers, replaying the segment twice from the reset state
yields the same Record Store contents as replaying it once (`seen_record_keys`
agrees as a set, every other component — results list, indices, reference
sets, external store, uuid supply — is equal), and every store of the second
pass is a replace with an identical payload, adding no new entry. -/
theorem c4_idempotent_replay (seg : List Record) (redis0 : RedisState)
    (t0 t1 : Nat)
    (hfields : ∀ r ∈ seg, (∃ s, truthy r.source_file = some s) ∧
      (∃ p, truthy r.processed_at = some p))
    (hsrc : seg.Pairwise
      (fun a b => truthy a.source_file ≠ truthy b.source_file))
    (hid : seg.Pairwise (fun a b => stableIdent a ≠ stableIdent b)) :
    scrubSeen (replayWal (replayWal (resetState redis0) seg t0) seg t1) =
        scrubSeen (replayWal (resetState redis0) seg t0) ∧
      (∀ k, k ∈ (replayWal (replayWal (resetState redis0) seg t0) seg
          t1).seenRecordKeys ↔
        k ∈ (replayWal (resetState redis0) seg t0).seenRecordKeys) ∧
      allReplaceIdentical (replayWal (resetState redis0) seg t0) seg t1
        = true := by
  have hest := replay_establishes seg (resetState redis0) t0 ?_ hsrc hid
  · exact replay_fixed_pass seg _ t1 hest
  · intro r hr
    obtain ⟨⟨s, hs⟩, ⟨p, hp⟩⟩ := hfields r hr
    exact ⟨s, p, hs, hp, rfl⟩

/-- C4 witness: a one-record segment for `a.pdf` replayed twice. -/
theorem c4_idempotent_witness :
    scrubSeen (replayWal (replayWal (resetState emptyRedis) [recA] 0)
        [recA] 2) =
      scrubSeen (replayWal (resetState emptyRedis) [recA] 0) := by
  have h := c4_idempotent_replay [recA] emptyRedis 0 2
    (by
      intro r hr
      rw [List.mem_singleton] at hr
      subst hr
      exact ⟨⟨"a.pdf", rfl⟩, ⟨"2024-01-01T00:00:00", rfl⟩⟩)
    (by simp) (by simp)
  exact h.1

end Batch
